import Mathlib

/-!
Verification development for the zerohedge RSS monitor.

The repository `zerohedge.go` contains two near-duplicate drafts of the same
program, concatenated.  The first draft (lines 1-496 of the concatenated file)
defines `limitText`, `translateWithYandex` (single call on text truncated to
`MaxSummaryLength`), `isValidURL`, `splitMessage`, `sendToTelegram` (splitting
at `TelegramMaxText-100`), `intelligentSummary` (with `MaxSummaryLength = 1000`),
`readLastPost`, `saveLastPost` and `processNewArticles` (which logs a warning
and returns nil on an empty feed).  The second draft (lines 497-896) differs in:
`translateWithYandex` chunks the text by `YandexMaxTextSize` and joins the
translations, `intelligentSummary` uses `MaxSummaryLength = 5000`,
`processNewArticles` returns an error on an empty feed, uses the raw
description/title (no cleaning, no URL validation, no empty-content skip).
Definitions carrying a `V2` suffix below embed the second draft; unsuffixed
definitions embed the first draft.

Strings are modelled as lists of byte-sized characters (`GoStr`): Go's `len`
and slicing are byte-based, and every repository input of interest is ASCII.
The one multibyte literal that matters for lengths, the ellipsis appended by
`intelligentSummary`, is spelled out as its three UTF-8 bytes.

External collaborators (the HTTP transport, the Yandex and Telegram services,
the file system) are modelled as explicit parameters: the feed already fetched
and parsed, per-item oracles for translation/delivery results, a flag for the
checkpoint write succeeding, and the checkpoint file as an optional parsed
record (a file that exists but fails to parse aborts the run before the loop
and is outside the modelled state).  `crypto/md5`, `encoding/hex` and the
relevant parts of `strings`/`regexp` are implemented faithfully below; all
definitions are structurally recursive so that concrete runs evaluate inside
the kernel.
-/

set_option maxRecDepth 1000000

namespace ZH

/-- Byte strings: Go strings as lists of byte-sized characters. -/
abbrev GoStr := List Char

/-- Character class `\s` of Go's regexp (RE2): `[\t\n\f\r ]`. -/
def reIsSpace (c : Char) : Bool :=
  c = ' ' || c = '\t' || c = '\n' || c = '\x0c' || c = '\r'

/-- ASCII white space of `unicode.IsSpace`, used by `strings.TrimSpace`:
`reIsSpace` plus vertical tab. -/
def goIsSpace (c : Char) : Bool := reIsSpace c || c = '\x0b'

/-- `strings.TrimSpace`: drop white space from both ends. -/
def trimSpace (s : GoStr) : GoStr :=
  ((s.dropWhile goIsSpace).reverse.dropWhile goIsSpace).reverse

/-- `strings.Join` with a separator. -/
def joinSep (sep : GoStr) : List GoStr → GoStr
  | [] => []
  | [x] => x
  | x :: y :: xs => x ++ sep ++ joinSep sep (y :: xs)

/-- Scanner for `strings.ReplaceAll`, fuelled by the input length: one unit of
fuel per emitted position, and a replacement consumes at least the whole
(nonempty) pattern, so fuel `s.length` always suffices.  The patterns used by
the program are the five nonempty HTML entities. -/
def replaceAllAux (pat rep : GoStr) : Nat → GoStr → GoStr
  | _, [] => []
  | 0, s => s
  | fuel + 1, c :: rest =>
    if pat ≠ [] ∧ (c :: rest).take pat.length = pat then
      rep ++ replaceAllAux pat rep fuel ((c :: rest).drop pat.length)
    else
      c :: replaceAllAux pat rep fuel rest

/-- `strings.ReplaceAll s pat rep` (leftmost, non-overlapping). -/
def replaceAll (s pat rep : GoStr) : GoStr := replaceAllAux pat rep s.length s

/-- Scanner for `regexp "<[^>]*>"` removal: a `<` with a later `>` is removed
together with everything up to that first `>`; a `<` with no closing `>`
matches nothing and is kept.  Fuelled like `replaceAllAux`. -/
def removeTagsAux : Nat → GoStr → GoStr
  | _, [] => []
  | 0, s => s
  | fuel + 1, c :: rest =>
    if c = '<' then
      match rest.dropWhile (fun d => d ≠ '>') with
      | [] => c :: removeTagsAux fuel rest
      | _ :: after => removeTagsAux fuel after
    else c :: removeTagsAux fuel rest

def removeTags (s : GoStr) : GoStr := removeTagsAux s.length s

/-- Scanner for `regexp "\s+"` → `" "`: collapse each run of white space to a
single space.  Fuelled like `replaceAllAux`. -/
def collapseWsAux : Nat → GoStr → GoStr
  | _, [] => []
  | 0, s => s
  | fuel + 1, c :: rest =>
    if reIsSpace c then ' ' :: collapseWsAux fuel (rest.dropWhile reIsSpace)
    else c :: collapseWsAux fuel rest

def collapseWs (s : GoStr) : GoStr := collapseWsAux s.length s

/-- `stripHTMLTags` of the first draft: decode the five HTML entities in
source order, remove tags, trim. -/
def stripHTMLTags (html : GoStr) : GoStr :=
  let h1 := replaceAll html "&lt;".data "<".data
  let h2 := replaceAll h1 "&gt;".data ">".data
  let h3 := replaceAll h2 "&amp;".data "&".data
  let h4 := replaceAll h3 "&quot;".data "\"".data
  let h5 := replaceAll h4 "&apos;".data "'".data
  trimSpace (removeTags h5)

/-- `cleanText`: strip tags, collapse white space, trim. -/
def cleanText (text : GoStr) : GoStr := trimSpace (collapseWs (stripHTMLTags text))

/-- Configuration constants of the first draft. -/
def MaxSummaryLength : Nat := 1000

def SummarySentences : Nat := 5

def MaxArticlesToSend : Nat := 3

def YandexMaxTextSize : Nat := 10000

def TelegramMaxText : Nat := 4096

/-- `MaxSummaryLength` of the second draft. -/
def MaxSummaryLengthV2 : Nat := 5000

/-- `limitText`: truncate to `maxLen` bytes and append `"..."`. -/
def limitText (text : GoStr) (maxLen : Nat) : GoStr :=
  if text.length ≤ maxLen then text else text.take maxLen ++ "...".data

/-- Terminal punctuation of the sentence regexp `(?s)(.*?[.!?](\s|$))`. -/
def isSentenceTerm (c : Char) : Bool := c = '.' || c = '!' || c = '?'

/-- Length of the leftmost-shortest match of `(?s)(.*?[.!?](\s|$))` starting at
the head of the text: the match ends at the first terminal punctuation that is
followed by white space (which the match consumes) or by the end of the text. -/
def sentenceEndIdx : GoStr → Option Nat
  | [] => none
  | c :: rest =>
    if isSentenceTerm c then
      match rest with
      | [] => some 1
      | d :: _ => if reIsSpace d then some 2 else (sentenceEndIdx rest).map (· + 1)
    else (sentenceEndIdx rest).map (· + 1)

/-- `FindAllString` of the sentence regexp: successive non-overlapping matches.
Every match is nonempty, so fuel `text.length` always suffices. -/
def sentenceMatchesAux : Nat → GoStr → List GoStr
  | _, [] => []
  | 0, _ => []
  | fuel + 1, text =>
    match sentenceEndIdx text with
    | none => []
    | some k => text.take k :: sentenceMatchesAux fuel (text.drop k)

def sentenceMatches (text : GoStr) : List GoStr := sentenceMatchesAux text.length text

/-- The three UTF-8 bytes of the ellipsis `…` appended by `intelligentSummary`
(Go's `len` counts it as 3). -/
def goEllipsis : GoStr := ['\xe2', '\x80', '\xa6']

/-- Index of the last `' '` in `s`, if any (`strings.LastIndex s " "`). -/
def lastSpace : GoStr → Option Nat
  | [] => none
  | c :: rest =>
    match lastSpace rest with
    | some i => some (i + 1)
    | none => if c = ' ' then some 0 else none

/-- `intelligentSummary` of the first draft (`MaxSummaryLength = 1000`). -/
def intelligentSummary (text : GoStr) : GoStr :=
  if text.length ≤ MaxSummaryLength then text
  else
    let ms := sentenceMatches text
    if 0 < ms.length then
      let sentences := min SummarySentences ms.length
      trimSpace (joinSep " ".data (ms.take sentences)) ++ goEllipsis
    else
      match lastSpace (text.take MaxSummaryLength) with
      | some spaceIndex =>
        if 0 < spaceIndex then text.take spaceIndex ++ goEllipsis
        else text.take MaxSummaryLength ++ goEllipsis
      | none => text.take MaxSummaryLength ++ goEllipsis

/-- `intelligentSummary` of the second draft (`MaxSummaryLength = 5000`;
`sentences := SummarySentences; if sentences > len(matches) ...` is the same
`min`). -/
def intelligentSummaryV2 (text : GoStr) : GoStr :=
  if text.length ≤ MaxSummaryLengthV2 then text
  else
    let ms := sentenceMatches text
    if 0 < ms.length then
      let sentences := min SummarySentences ms.length
      trimSpace (joinSep " ".data (ms.take sentences)) ++ goEllipsis
    else
      match lastSpace (text.take MaxSummaryLengthV2) with
      | some spaceIndex =>
        if 0 < spaceIndex then text.take spaceIndex ++ goEllipsis
        else text.take MaxSummaryLengthV2 ++ goEllipsis
      | none => text.take MaxSummaryLengthV2 ++ goEllipsis

/-- First index at which `pat` occurs as a contiguous sublist. -/
def idxOfSub (pat : GoStr) : GoStr → Option Nat
  | [] => none
  | c :: rest =>
    if (c :: rest).take pat.length = pat then some 0
    else (idxOfSub pat rest).map (· + 1)

/-- `isValidURL`: model of `url.ParseRequestURI` followed by the checks
`u.Scheme != "" && u.Host != ""` — the string must be `scheme://host...` with a
nonempty scheme of URL scheme characters and a nonempty host. -/
def isValidURL (rawURL : GoStr) : Bool :=
  match idxOfSub "://".data rawURL with
  | none => false
  | some i =>
    let scheme := rawURL.take i
    let host := (rawURL.drop (i + 3)).takeWhile fun c => c ≠ '/' && c ≠ '?' && c ≠ '#'
    decide (scheme ≠ []) &&
      scheme.all (fun c => c.isAlpha || c.isDigit || c = '+' || c = '-' || c = '.') &&
      decide (host ≠ [])

/-- Contiguous chunks of at most `size` elements, in order: the value of the
Go loop `for i := 0; i < len(xs); i += size` collecting `xs[i:min(i+size,len)]`.
(Go diverges for `size = 0`; all call sites use a positive constant.) -/
def chunksOf {α : Type} (size : Nat) (xs : List α) : List (List α) :=
  (List.range ((xs.length + size - 1) / size)).map fun i => (xs.drop (size * i)).take size

/-- The loop of `splitMessage`: while text remains, peel off
`partLen := min(maxLen, len(text))` characters as the next part.  Fuelled by
the initial length (each round consumes at least one character when
`maxLen ≥ 1`; Go diverges for `maxLen ≤ 0`, and the only call site passes
`TelegramMaxText - 100`). -/
def splitMessageAux (maxLen : Nat) : Nat → GoStr → List GoStr
  | _, [] => []
  | 0, _ => []
  | fuel + 1, c :: rest =>
    (c :: rest).take (min maxLen (c :: rest).length) ::
      splitMessageAux maxLen fuel ((c :: rest).drop (min maxLen (c :: rest).length))

/-- `splitMessage text maxLen`. -/
def splitMessage (text : GoStr) (maxLen : Nat) : List GoStr :=
  splitMessageAux maxLen text.length text

/-! ## crypto/md5 and encoding/hex -/

/-- Reduction to a 32-bit word. -/
def w32 (n : Nat) : Nat := n % 4294967296

def mask32 : Nat := 4294967295

/-- 32-bit left rotation (`x` must already be a 32-bit word). -/
def rotl32 (x s : Nat) : Nat := w32 (x <<< s) ||| (x >>> (32 - s))

/-- The MD5 sine table `K` (RFC 1321). -/
def md5K : List Nat := [3614090360, 3905402710, 606105819, 3250441966, 4118548399, 1200080426, 2821735955, 4249261313, 1770035416, 2336552879, 4294925233, 2304563134, 1804603682, 4254626195, 2792965006, 1236535329, 4129170786, 3225465664, 643717713, 3921069994, 3593408605, 38016083, 3634488961, 3889429448, 568446438, 3275163606, 4107603335, 1163531501, 2850285829, 4243563512, 1735328473, 2368359562, 4294588738, 2272392833, 1839030562, 4259657740, 2763975236, 1272893353, 4139469664, 3200236656, 681279174, 3936430074, 3572445317, 76029189, 3654602809, 3873151461, 530742520, 3299628645, 4096336452, 1126891415, 2878612391, 4237533241, 1700485571, 2399980690, 4293915773, 2240044497, 1873313359, 4264355552, 2734768916, 1309151649, 4149444226, 3174756917, 718787259, 3951481745]

/-- The MD5 per-round shift amounts. -/
def md5S : List Nat := [7, 12, 17, 22, 7, 12, 17, 22, 7, 12, 17, 22, 7, 12, 17, 22, 5, 9, 14, 20, 5, 9, 14, 20, 5, 9, 14, 20, 5, 9, 14, 20, 4, 11, 16, 23, 4, 11, 16, 23, 4, 11, 16, 23, 4, 11, 16, 23, 6, 10, 15, 21, 6, 10, 15, 21, 6, 10, 15, 21, 6, 10, 15, 21]

/-- Little-endian 32-bit word from four bytes. -/
def leWord (b0 b1 b2 b3 : Nat) : Nat := b0 + 256 * b1 + 65536 * b2 + 16777216 * b3

/-- Word `g` of a 64-byte block. -/
def blockWord (block : List Nat) (g : Nat) : Nat :=
  leWord (block.getD (4 * g) 0) (block.getD (4 * g + 1) 0)
    (block.getD (4 * g + 2) 0) (block.getD (4 * g + 3) 0)

/-- One MD5 round. -/
def md5Round (block : List Nat) (st : Nat × Nat × Nat × Nat) (r : Nat) :
    Nat × Nat × Nat × Nat :=
  let (a, b, c, d) := st
  let f :=
    if r < 16 then (b &&& c) ||| ((b ^^^ mask32) &&& d)
    else if r < 32 then (d &&& b) ||| ((d ^^^ mask32) &&& c)
    else if r < 48 then b ^^^ c ^^^ d
    else c ^^^ (b ||| (d ^^^ mask32))
  let g :=
    if r < 16 then r
    else if r < 32 then (5 * r + 1) % 16
    else if r < 48 then (3 * r + 5) % 16
    else (7 * r) % 16
  let tmp := w32 (a + f + md5K.getD r 0 + blockWord block g)
  (d, w32 (b + rotl32 tmp (md5S.getD r 0)), b, c)

/-- Process one 64-byte block. -/
def md5Block (st : Nat × Nat × Nat × Nat) (block : List Nat) : Nat × Nat × Nat × Nat :=
  let out := (List.range 64).foldl (md5Round block) st
  (w32 (st.1 + out.1), w32 (st.2.1 + out.2.1), w32 (st.2.2.1 + out.2.2.1),
    w32 (st.2.2.2 + out.2.2.2))

/-- MD5 padding: `0x80`, zeros to 56 mod 64, then the bit length as eight
little-endian bytes. -/
def md5Pad (msg : List Nat) : List Nat :=
  let padLen := (119 - msg.length % 64) % 64
  let ml := (8 * msg.length) % 18446744073709551616
  msg ++ [128] ++ List.replicate padLen 0 ++
    [ml % 256, ml >>> 8 % 256, ml >>> 16 % 256, ml >>> 24 % 256,
     ml >>> 32 % 256, ml >>> 40 % 256, ml >>> 48 % 256, ml >>> 56 % 256]

/-- Serialize a 32-bit word as four little-endian bytes. -/
def wordLE (w : Nat) : List Nat :=
  [w % 256, w / 256 % 256, w / 65536 % 256, w / 16777216 % 256]

/-- `md5.Sum`: the 16-byte MD5 digest.  (Checked against reference digests:
`md5Sum` of `"abc"` is `900150983cd24fb0d6963f7d28e17f72` in hex.) -/
def md5Sum (msg : List Nat) : List Nat :=
  let st := (chunksOf 64 (md5Pad msg)).foldl md5Block
    (1732584193, 4023233417, 2562383102, 271733878)
  wordLE st.1 ++ wordLE st.2.1 ++ wordLE st.2.2.1 ++ wordLE st.2.2.2

/-- One lowercase hex digit. -/
def hexDigit (n : Nat) : Char := "0123456789abcdef".data.getD n '0'

/-- `hex.EncodeToString`: two lowercase hex digits per byte. -/
def hexEncode : List Nat → GoStr
  | [] => []
  | b :: bs => hexDigit (b / 16 % 16) :: hexDigit (b % 16) :: hexEncode bs

/-- The identifier fingerprint computed by the program:
`hex.EncodeToString(md5.Sum([]byte(s))[:])`. -/
def fingerprint (s : GoStr) : GoStr := hexEncode (md5Sum (s.map Char.toNat))

/-! ## Checkpoint store -/

/-- The checkpoint record persisted in `last_post.txt`. -/
structure LastPost where
  url : GoStr
  hash : GoStr
deriving DecidableEq

/-- `readLastPost` on the modelled file state: a missing file yields the zero
value (empty `URL` and `Hash`); an existing file yields its parsed record.
(A file that exists but fails to parse makes the whole run fail before the
loop and is outside the modelled state.) -/
def readLastPost (file : Option LastPost) : LastPost := file.getD ⟨[], []⟩

/-- The record written by `saveLastPost url`: the url and the hex MD5
fingerprint of the url. -/
def saveLastPost (url : GoStr) : LastPost := ⟨url, fingerprint url⟩

/-- File-system operations, for the write-trace model of `saveLastPost`. -/
inductive FSOp where
  | writeFile (path : GoStr) (data : GoStr)
  | rename (src : GoStr) (dst : GoStr)
deriving DecidableEq

def FSOp.isRename : FSOp → Bool
  | .rename _ _ => true
  | _ => false

/-- The fixed checkpoint path `LastPostFile`. -/
def lastPostFile : GoStr := "last_post.txt".data

/-- `encoding/json` string escaping restricted to the characters that need it
here (Go additionally escapes control and HTML characters, which never occur
in the URL/hex-hash fields). -/
def jsonEscape (s : GoStr) : GoStr :=
  s.flatMap fun c => if c = '"' ∨ c = '\\' then ['\\', c] else [c]

/-- `json.Marshal(LastPost{URL: url, Hash: hash})`. -/
def marshalLastPost (lp : LastPost) : GoStr :=
  "\x7b\"url\":\"".data ++ jsonEscape lp.url ++ "\",\"hash\":\"".data ++
    jsonEscape lp.hash ++ "\"\x7d".data

/-- The file-system operations performed by `saveLastPost`: a single
`os.WriteFile(LastPostFile, data, 0644)` of the marshalled record, directly at
the final path. -/
def saveLastPostOps (url : GoStr) : List FSOp :=
  [FSOp.writeFile lastPostFile (marshalLastPost (saveLastPost url))]

/-- The spec's claimed write discipline, stated from its words: some write to a
temporary location is later renamed onto the checkpoint path. -/
def writesViaTempRename (ops : List FSOp) : Prop :=
  ∃ (i j : Nat) (tmp data : GoStr), i < j ∧ ops[i]? = some (FSOp.writeFile tmp data) ∧
    ops[j]? = some (FSOp.rename tmp lastPostFile) ∧ tmp ≠ lastPostFile

/-! ## The new-item pipeline (`processNewArticles`) -/

/-- One parsed feed item. -/
structure Item where
  title : GoStr
  link : GoStr
  description : GoStr
  pubDate : GoStr
deriving DecidableEq

/-- Per-item outcome of one loop iteration (the spec's `DeliveryOutcome`,
plus `alreadySeen` for the item at which the checkpoint boundary stops the
loop). -/
inductive Outcome where
  | delivered
  | invalidLink
  | emptyContent
  | translationFailed
  | deliveryFailed
  | alreadySeen
deriving DecidableEq

/-- Actions attempted by the loop, tagged with the item index, in program
order: the hash comparison, the checkpoint write, link validation, content
normalization, the translation call, the delivery call. -/
inductive Ev where
  | checked (i : Nat)
  | save (i : Nat) (link : GoStr)
  | validate (i : Nat)
  | normalize (i : Nat)
  | translate (i : Nat)
  | deliver (i : Nat)
deriving DecidableEq

/-- The per-item recoverable failures of the spec's error taxonomy. -/
def Outcome.isPerItemFailure : Outcome → Bool
  | .invalidLink => true
  | .emptyContent => true
  | .translationFailed => true
  | .deliveryFailed => true
  | _ => false

def Ev.idx : Ev → Nat
  | .checked i => i
  | .save i _ => i
  | .validate i => i
  | .normalize i => i
  | .translate i => i
  | .deliver i => i

def Ev.isSave : Ev → Bool
  | .save _ _ => true
  | _ => false

/-- Per-item work on the item itself (everything after the hash comparison and
the checkpoint write). -/
def Ev.isWork : Ev → Bool
  | .validate _ => true
  | .normalize _ => true
  | .translate _ => true
  | .deliver _ => true
  | _ => false

def Ev.isDeliver : Ev → Bool
  | .deliver _ => true
  | _ => false

/-- Results of the external services for one run: the translation result per
item index and content (`none` models any `translateWithYandex` error,
including missing credentials), the delivery result per item index and
message, and whether the checkpoint write succeeds. -/
structure Oracle where
  translateRes : Nat → GoStr → Option GoStr
  deliverOk : Nat → GoStr → Bool
  saveOk : Bool

/-- Run-aborting errors (transport errors happen before the modelled state
and are omitted; `emptyFeed` is produced only by the second draft). -/
inductive RunErr where
  | emptyFeed
  | saveFailed
deriving DecidableEq

/-- Result of one `processNewArticles` run: final checkpoint-file state,
per-item outcomes in iteration order, attempted actions in program order,
the final `newArticles` count, and the returned error if any. -/
structure RunOut where
  fsAfter : Option LastPost
  outcomes : List (Nat × Outcome)
  events : List Ev
  delivered : Nat
  err : Option RunErr
deriving DecidableEq

/-- Outcome, events and updated `newArticles` count of one iteration body. -/
structure ItemStep where
  ocs : List (Nat × Outcome)
  evs : List Ev
  count : Nat
deriving DecidableEq

/-- The delivery message `fmt.Sprintf` template (identical in both drafts;
the first passes cleaned title/date, the second the raw fields).  The emoji
are kept as single characters; message bytes are never measured here. -/
def formatMessage (title summary pubDate link : GoStr) : GoStr :=
  "<b>📌 ".data ++ title ++ "</b>\n\n".data ++ summary ++ "\n\n<b>📅 ".data ++
    pubDate ++ "</b>\n🔗 <a href=\"".data ++ link ++ "\">Read full article</a>".data

/-- The normalized content of an item in the first draft: the cleaned
description, falling back to the cleaned title when that is empty. -/
def itemContent (item : Item) : GoStr :=
  if cleanText item.description = [] then cleanText item.title
  else cleanText item.description

/-- The delivery message of the first draft (cleaned title and date,
summarized translation). -/
def itemMessage (item : Item) (translation : GoStr) : GoStr :=
  formatMessage (cleanText item.title) (intelligentSummary translation)
    (cleanText item.pubDate) item.link

/-- The first draft's loop body for item `i` after the hash comparison and the
`i = 0` checkpoint write: validate the link; clean the description, falling
back to the cleaned title; skip empty content; translate; summarize, format
and deliver.  Every failure is logged and skips just this item. -/
def itemWork (o : Oracle) (item : Item) (i n : Nat) : ItemStep :=
  if !isValidURL item.link then ⟨[(i, .invalidLink)], [.validate i], n⟩
  else if itemContent item = [] then ⟨[(i, .emptyContent)], [.validate i, .normalize i], n⟩
  else
    match o.translateRes i (itemContent item) with
    | none => ⟨[(i, .translationFailed)], [.validate i, .normalize i, .translate i], n⟩
    | some translation =>
      if o.deliverOk i (itemMessage item translation) then
        ⟨[(i, .delivered)], [.validate i, .normalize i, .translate i, .deliver i], n + 1⟩
      else
        ⟨[(i, .deliveryFailed)], [.validate i, .normalize i, .translate i, .deliver i], n⟩

/-- The first draft's loop over the remaining items, starting at index `i`
with `newArticles = n`: stop at the cap; stop at the first item whose
fingerprint equals the stored checkpoint hash; for index 0 persist the
checkpoint (aborting the run if the write fails) before any per-item work. -/
def stepItems (o : Oracle) (cpHash : GoStr) : List Item → Nat → Nat → Option LastPost → RunOut
  | [], _, n, fs => ⟨fs, [], [], n, none⟩
  | item :: rest, i, n, fs =>
    if MaxArticlesToSend ≤ n then ⟨fs, [], [], n, none⟩
    else if fingerprint item.link = cpHash then
      ⟨fs, [(i, .alreadySeen)], [.checked i], n, none⟩
    else if i = 0 then
      if o.saveOk then
        let w := itemWork o item i n
        let restOut := stepItems o cpHash rest (i + 1) w.count (some (saveLastPost item.link))
        ⟨restOut.fsAfter, w.ocs ++ restOut.outcomes,
          .checked i :: .save i item.link :: (w.evs ++ restOut.events),
          restOut.delivered, restOut.err⟩
      else ⟨fs, [], [.checked i, .save i item.link], n, some .saveFailed⟩
    else
      let w := itemWork o item i n
      let restOut := stepItems o cpHash rest (i + 1) w.count fs
      ⟨restOut.fsAfter, w.ocs ++ restOut.outcomes,
        .checked i :: (w.evs ++ restOut.events), restOut.delivered, restOut.err⟩

/-- `processNewArticles` of the first draft, after a successful fetch: an
empty feed logs a warning and returns nil; otherwise load the checkpoint and
run the loop from index 0. -/
def processNewArticles (feed : List Item) (file : Option LastPost) (o : Oracle) : RunOut :=
  if feed = [] then ⟨file, [], [], 0, none⟩
  else stepItems o (readLastPost file).hash feed 0 0 file

/-- The raw content of an item in the second draft: the description, falling
back to the title plus a fixed suffix (never empty). -/
def itemContentV2 (item : Item) : GoStr :=
  if item.description = [] then item.title ++ ". Read more at the link below.".data
  else item.description

/-- The second draft's loop body: no URL validation and no cleaning, then
translate, summarize (`V2` limit), format and deliver. -/
def itemWorkV2 (o : Oracle) (item : Item) (i n : Nat) : ItemStep :=
  match o.translateRes i (itemContentV2 item) with
  | none => ⟨[(i, .translationFailed)], [.translate i], n⟩
  | some translation =>
    if o.deliverOk i (formatMessage item.title (intelligentSummaryV2 translation)
        item.pubDate item.link) then
      ⟨[(i, .delivered)], [.translate i, .deliver i], n + 1⟩
    else
      ⟨[(i, .deliveryFailed)], [.translate i, .deliver i], n⟩

/-- The second draft's loop (same checkpoint and cap handling as the first). -/
def stepItemsV2 (o : Oracle) (cpHash : GoStr) : List Item → Nat → Nat → Option LastPost → RunOut
  | [], _, n, fs => ⟨fs, [], [], n, none⟩
  | item :: rest, i, n, fs =>
    if MaxArticlesToSend ≤ n then ⟨fs, [], [], n, none⟩
    else if fingerprint item.link = cpHash then
      ⟨fs, [(i, .alreadySeen)], [.checked i], n, none⟩
    else if i = 0 then
      if o.saveOk then
        let w := itemWorkV2 o item i n
        let restOut := stepItemsV2 o cpHash rest (i + 1) w.count (some (saveLastPost item.link))
        ⟨restOut.fsAfter, w.ocs ++ restOut.outcomes,
          .checked i :: .save i item.link :: (w.evs ++ restOut.events),
          restOut.delivered, restOut.err⟩
      else ⟨fs, [], [.checked i, .save i item.link], n, some .saveFailed⟩
    else
      let w := itemWorkV2 o item i n
      let restOut := stepItemsV2 o cpHash rest (i + 1) w.count fs
      ⟨restOut.fsAfter, w.ocs ++ restOut.outcomes,
        .checked i :: (w.evs ++ restOut.events), restOut.delivered, restOut.err⟩

/-- `processNewArticles` of the second draft: an empty feed returns the error
`errors.New("no articles in RSS feed")`. -/
def processNewArticlesV2 (feed : List Item) (file : Option LastPost) (o : Oracle) : RunOut :=
  if feed = [] then ⟨file, [], [], 0, some .emptyFeed⟩
  else stepItemsV2 o (readLastPost file).hash feed 0 0 file

/-! ## Transformer models (`translateWithYandex`) -/

/-- Issue one remote call per chunk, strictly in order, failing fast on the
first error and discarding partial output. -/
def translateCalls (call : GoStr → Option GoStr) : List GoStr → Option (List GoStr)
  | [] => some []
  | c :: cs =>
    match call c with
    | none => none
    | some t =>
      match translateCalls call cs with
      | none => none
      | some ts => some (t :: ts)

/-- The first draft's `translateWithYandex`: reject missing credentials, limit
the text to its first `MaxSummaryLength` bytes (plus `"..."`), then issue a
single remote call with the limited text.  `call` is the remote translation
service; `none` models any transport/API error. -/
def translateWithYandex (apiKey folderId : GoStr) (call : GoStr → Option GoStr)
    (text : GoStr) : Option GoStr :=
  if apiKey = [] ∨ folderId = [] then none
  else call (limitText text MaxSummaryLength)

/-- The second draft's `translateWithYandex`: reject missing credentials,
chunk the text by `YandexMaxTextSize`, issue one call per chunk in order
(failing fast), and join the per-chunk translations in chunk order. -/
def translateWithYandexV2 (apiKey folderId : GoStr) (call : GoStr → Option GoStr)
    (text : GoStr) : Option GoStr :=
  if apiKey = [] ∨ folderId = [] then none
  else (translateCalls call (chunksOf YandexMaxTextSize text)).map fun ts => ts.flatten

/-! ## Delivery splitter (`sendToTelegram`, first draft) -/

/-- Deliver the parts strictly in order starting at part index `i`, stopping
at the first failed delivery; returns the parts whose delivery was attempted
and the index of the failed part, if any (the Go code returns an error naming
that part). -/
def sendParts (ok : Nat → Bool) : List GoStr → Nat → List GoStr × Option Nat
  | [], _ => ([], none)
  | p :: ps, i =>
    if ok i then
      let r := sendParts ok ps (i + 1)
      (p :: r.1, r.2)
    else ([p], some i)

/-- The first draft's `sendToTelegram`: split the message at
`TelegramMaxText - 100` (a 100-byte safety margin below the hard limit) and
deliver the parts in order; `ok` is the delivery service's per-part result. -/
def sendToTelegram (ok : Nat → Bool) (text : GoStr) : List GoStr × Option Nat :=
  sendParts ok (splitMessage text (TelegramMaxText - 100)) 0

/-! ## Helper lemmas -/

theorem hexEncode_length (bs : List Nat) : (hexEncode bs).length = 2 * bs.length := by
  induction bs with
  | nil => rfl
  | cons b bs ih =>
    simp only [hexEncode, List.length_cons, ih]
    omega

theorem md5Sum_length (msg : List Nat) : (md5Sum msg).length = 16 := by
  simp [md5Sum, wordLE]

theorem fingerprint_length (s : GoStr) : (fingerprint s).length = 32 := by
  simp [fingerprint, hexEncode_length, md5Sum_length]

@[simp]
theorem fingerprint_ne_nil (s : GoStr) : fingerprint s ≠ [] := by
  intro h
  have h32 := fingerprint_length s
  rw [h] at h32
  simp at h32

@[simp]
theorem nil_ne_fingerprint (s : GoStr) : ([] : GoStr) ≠ fingerprint s :=
  fun h => fingerprint_ne_nil s h.symm

theorem hexDigit_mem : ∀ n < 16, hexDigit n ∈ "0123456789abcdef".data := by decide

theorem hexEncode_mem {c : Char} : ∀ {bs : List Nat}, c ∈ hexEncode bs →
    c ∈ "0123456789abcdef".data := by
  intro bs
  induction bs with
  | nil => intro h; cases h
  | cons b bs ih =>
    intro h
    rcases h with _ | ⟨_, h⟩
    · exact hexDigit_mem _ (Nat.mod_lt _ (by omega))
    · rcases h with _ | ⟨_, h⟩
      · exact hexDigit_mem _ (Nat.mod_lt _ (by omega))
      · exact ih h

theorem fingerprint_hex {s : GoStr} {c : Char} (h : c ∈ fingerprint s) :
    c ∈ "0123456789abcdef".data := hexEncode_mem h

theorem lastSpace_lt {s : GoStr} {i : Nat} (h : lastSpace s = some i) : i < s.length := by
  induction s generalizing i with
  | nil => cases h
  | cons c rest ih =>
    unfold lastSpace at h
    rcases hr : lastSpace rest with _ | j <;> rw [hr] at h
    · by_cases hc : c = ' '
      · simp [hc] at h
        simp only [List.length_cons]
        omega
      · simp [hc] at h
    · obtain rfl : i = j + 1 := by simpa using h.symm
      have := ih hr
      simp; omega

theorem chunksOf_nil {α : Type} (size : Nat) : chunksOf size ([] : List α) = [] := by
  rcases size with _ | k
  · simp [chunksOf]
  · simp [chunksOf, Nat.div_eq_of_lt (Nat.lt_succ_self k)]

theorem chunksOf_cons {α : Type} {size : Nat} (hs : 1 ≤ size) {xs : List α} (hx : xs ≠ []) :
    chunksOf size xs = xs.take size :: chunksOf size (xs.drop size) := by
  have hlen : 1 ≤ xs.length := List.length_pos.mpr hx
  have hcount : (xs.length + size - 1) / size = ((xs.length - size) + size - 1) / size + 1 := by
    rcases Nat.le_total xs.length size with h | h
    · have h1 : (xs.length + size - 1) / size = 1 := Nat.div_eq_of_lt_le (by omega) (by omega)
      have h0 : ((xs.length - size) + size - 1) / size = 0 := Nat.div_eq_of_lt (by omega)
      rw [h1, h0]
    · have e1 : xs.length + size - 1 = (xs.length - 1) + size := by omega
      have e2 : (xs.length - size) + size - 1 = xs.length - 1 := by omega
      rw [e1, e2, Nat.add_div_right _ (by omega)]
  rw [chunksOf, chunksOf, List.length_drop, hcount, List.range_succ_eq_map]
  simp only [List.map_cons, List.map_map, Nat.mul_zero, List.drop_zero]
  refine congrArg₂ _ rfl (List.map_congr_left fun i _ => ?_)
  simp [Function.comp, List.drop_drop, Nat.mul_succ, Nat.add_comm]

theorem chunksOf_flatten {α : Type} {size : Nat} (hs : 1 ≤ size) (xs : List α) :
    (chunksOf size xs).flatten = xs := by
  by_cases hx : xs = []
  · subst hx; simp [chunksOf_nil]
  · rw [chunksOf_cons hs hx, List.flatten_cons, chunksOf_flatten hs (xs.drop size),
      List.take_append_drop]
termination_by xs.length
decreasing_by
  simp only [List.length_drop]
  have := List.length_pos.mpr hx
  omega

theorem chunksOf_mem_length {α : Type} {size : Nat} {p : List α} {xs : List α}
    (hp : p ∈ chunksOf size xs) : p.length ≤ size := by
  simp only [chunksOf, List.mem_map] at hp
  obtain ⟨i, _, rfl⟩ := hp
  simp

theorem chunksOf_length_sum {α : Type} {size : Nat} (hs : 1 ≤ size) (xs : List α) :
    ((chunksOf size xs).map List.length).sum = xs.length := by
  rw [← List.length_flatten, chunksOf_flatten hs]

theorem take_min_self {α : Type} (n : Nat) (l : List α) :
    l.take (min n l.length) = l.take n := by
  rcases Nat.le_total n l.length with h | h
  · rw [Nat.min_eq_left h]
  · rw [Nat.min_eq_right h, List.take_length, List.take_of_length_le h]

theorem drop_min_self {α : Type} (n : Nat) (l : List α) :
    l.drop (min n l.length) = l.drop n := by
  rcases Nat.le_total n l.length with h | h
  · rw [Nat.min_eq_left h]
  · rw [Nat.min_eq_right h, List.drop_length, List.drop_eq_nil_of_le h]

theorem splitMessageAux_eq_chunksOf {maxLen : Nat} (hm : 1 ≤ maxLen) :
    ∀ (fuel : Nat) (text : GoStr), text.length ≤ fuel →
      splitMessageAux maxLen fuel text = chunksOf maxLen text := by
  intro fuel
  induction fuel with
  | zero =>
    intro text hlen
    obtain rfl : text = [] := List.eq_nil_of_length_eq_zero (by omega)
    rw [chunksOf_nil]
    rfl
  | succ f ih =>
    intro text hlen
    rcases text with _ | ⟨c, rest⟩
    · rw [chunksOf_nil]
      rfl
    · rw [chunksOf_cons hm (by simp)]
      show (c :: rest).take (min maxLen (c :: rest).length) ::
        splitMessageAux maxLen f ((c :: rest).drop (min maxLen (c :: rest).length)) = _
      rw [take_min_self, drop_min_self]
      congr 1
      apply ih
      simp only [List.length_drop, List.length_cons] at hlen ⊢
      omega

theorem splitMessage_eq_chunksOf (text : GoStr) {maxLen : Nat} (hm : 1 ≤ maxLen) :
    splitMessage text maxLen = chunksOf maxLen text :=
  splitMessageAux_eq_chunksOf hm text.length text (Nat.le_refl _)

theorem sendParts_ok (ps : List GoStr) : ∀ i, sendParts (fun _ => true) ps i = (ps, none) := by
  induction ps with
  | nil => intro i; rfl
  | cons p ps ih => intro i; simp [sendParts, ih (i + 1)]

theorem translateCalls_id (cs : List GoStr) :
    translateCalls (fun c => some c) cs = some cs := by
  induction cs with
  | nil => rfl
  | cons c cs ih => simp [translateCalls, ih]

theorem itemWork_spec (o : Oracle) (item : Item) (i n : Nat) :
    ∃ oc, (itemWork o item i n).ocs = [(i, oc)] ∧ oc ≠ Outcome.alreadySeen ∧
      (itemWork o item i n).count = (if oc = Outcome.delivered then n + 1 else n) ∧
      ∀ e ∈ (itemWork o item i n).evs, e.isSave = false ∧ e.isWork = true ∧ e.idx = i := by
  unfold itemWork
  split
  · exact ⟨.invalidLink, rfl, by decide, by simp, by simp [Ev.isSave, Ev.isWork, Ev.idx]⟩
  · split
    · exact ⟨.emptyContent, rfl, by decide, by simp, by simp [Ev.isSave, Ev.isWork, Ev.idx]⟩
    · split
      · exact ⟨.translationFailed, rfl, by decide, by simp,
          by simp [Ev.isSave, Ev.isWork, Ev.idx]⟩
      · split
        · exact ⟨.delivered, rfl, by decide, by simp,
            by simp [Ev.isSave, Ev.isWork, Ev.idx]⟩
        · exact ⟨.deliveryFailed, rfl, by decide, by simp,
            by simp [Ev.isSave, Ev.isWork, Ev.idx]⟩

theorem stepItems_cap {o : Oracle} {cp : GoStr} {x : Item} {xs : List Item}
    {i n : Nat} {fs : Option LastPost} (hcap : MaxArticlesToSend ≤ n) :
    stepItems o cp (x :: xs) i n fs = ⟨fs, [], [], n, none⟩ := by
  simp only [stepItems]
  rw [if_pos hcap]

theorem stepItems_seen {o : Oracle} {cp : GoStr} {x : Item} {xs : List Item}
    {i n : Nat} {fs : Option LastPost} (hcap : ¬ MaxArticlesToSend ≤ n)
    (hm : fingerprint x.link = cp) :
    stepItems o cp (x :: xs) i n fs = ⟨fs, [(i, .alreadySeen)], [.checked i], n, none⟩ := by
  simp only [stepItems]
  rw [if_neg hcap, if_pos hm]

theorem stepItems_savefail {o : Oracle} {cp : GoStr} {x : Item} {xs : List Item}
    {n : Nat} {fs : Option LastPost} (hcap : ¬ MaxArticlesToSend ≤ n)
    (hm : fingerprint x.link ≠ cp) (hsv : ¬ o.saveOk = true) :
    stepItems o cp (x :: xs) 0 n fs =
      ⟨fs, [], [.checked 0, .save 0 x.link], n, some .saveFailed⟩ := by
  simp [stepItems, hcap, hm, hsv]

theorem stepItems_step {o : Oracle} {cp : GoStr} {x : Item} {xs : List Item}
    {i n : Nat} {fs : Option LastPost} (hcap : ¬ MaxArticlesToSend ≤ n)
    (hm : fingerprint x.link ≠ cp) (hok : i = 0 → o.saveOk = true) :
    stepItems o cp (x :: xs) i n fs =
      ⟨(stepItems o cp xs (i + 1) (itemWork o x i n).count
          (if i = 0 then some (saveLastPost x.link) else fs)).fsAfter,
       (itemWork o x i n).ocs ++ (stepItems o cp xs (i + 1) (itemWork o x i n).count
          (if i = 0 then some (saveLastPost x.link) else fs)).outcomes,
       (if i = 0 then [Ev.checked i, Ev.save i x.link] else [Ev.checked i]) ++
         ((itemWork o x i n).evs ++ (stepItems o cp xs (i + 1) (itemWork o x i n).count
          (if i = 0 then some (saveLastPost x.link) else fs)).events),
       (stepItems o cp xs (i + 1) (itemWork o x i n).count
          (if i = 0 then some (saveLastPost x.link) else fs)).delivered,
       (stepItems o cp xs (i + 1) (itemWork o x i n).count
          (if i = 0 then some (saveLastPost x.link) else fs)).err⟩ := by
  by_cases hi0 : i = 0
  · subst hi0
    simp [stepItems, hcap, hm, hok rfl]
  · simp [stepItems, hcap, hm, hi0]

theorem stepItems_err_pos (o : Oracle) (cp : GoStr) :
    ∀ (items : List Item) (i n : Nat) (fs : Option LastPost), 1 ≤ i →
      (stepItems o cp items i n fs).err = none := by
  intro items
  induction items with
  | nil => intro i n fs _; rfl
  | cons x xs ih =>
    intro i n fs hi
    have hi0 : ¬ i = 0 := by omega
    by_cases hcap : MaxArticlesToSend ≤ n
    · rw [stepItems_cap hcap]
    · by_cases hm : fingerprint x.link = cp
      · rw [stepItems_seen hcap hm]
      · rw [stepItems_step hcap hm (fun h => absurd h hi0)]
        exact ih (i + 1) _ _ (by omega)

theorem stepItems_fs_pos (o : Oracle) (cp : GoStr) :
    ∀ (items : List Item) (i n : Nat) (fs : Option LastPost), 1 ≤ i →
      (stepItems o cp items i n fs).fsAfter = fs := by
  intro items
  induction items with
  | nil => intro i n fs _; rfl
  | cons x xs ih =>
    intro i n fs hi
    have hi0 : ¬ i = 0 := by omega
    by_cases hcap : MaxArticlesToSend ≤ n
    · rw [stepItems_cap hcap]
    · by_cases hm : fingerprint x.link = cp
      · rw [stepItems_seen hcap hm]
      · rw [stepItems_step hcap hm (fun h => absurd h hi0)]
        show (stepItems o cp xs (i + 1) (itemWork o x i n).count
          (if i = 0 then some (saveLastPost x.link) else fs)).fsAfter = fs
        rw [if_neg hi0]
        exact ih (i + 1) _ _ (by omega)

theorem stepItems_no_save_pos (o : Oracle) (cp : GoStr) :
    ∀ (items : List Item) (i n : Nat) (fs : Option LastPost), 1 ≤ i →
      ∀ e ∈ (stepItems o cp items i n fs).events, e.isSave = false := by
  intro items
  induction items with
  | nil => intro i n fs _ e he; cases he
  | cons x xs ih =>
    intro i n fs hi e he
    have hi0 : ¬ i = 0 := by omega
    by_cases hcap : MaxArticlesToSend ≤ n
    · rw [stepItems_cap hcap] at he; cases he
    · by_cases hm : fingerprint x.link = cp
      · rw [stepItems_seen hcap hm] at he
        simp only [List.mem_singleton] at he
        subst he; rfl
      · rw [stepItems_step hcap hm (fun h => absurd h hi0)] at he
        simp only [if_neg hi0, List.cons_append, List.nil_append, List.mem_cons,
          List.mem_append] at he
        rcases he with rfl | he | he
        · rfl
        · exact ((itemWork_spec o x i n).choose_spec.2.2.2 e he).1
        · exact ih (i + 1) _ _ (by omega) e he

theorem stepItems_outcome_range (o : Oracle) (cp : GoStr) :
    ∀ (items : List Item) (i n : Nat) (fs : Option LastPost) (j : Nat) (oc : Outcome),
      (j, oc) ∈ (stepItems o cp items i n fs).outcomes → i ≤ j ∧ j < i + items.length := by
  intro items
  induction items with
  | nil => intro i n fs j oc h; cases h
  | cons x xs ih =>
    intro i n fs j oc h
    by_cases hcap : MaxArticlesToSend ≤ n
    · rw [stepItems_cap hcap] at h; cases h
    · by_cases hm : fingerprint x.link = cp
      · rw [stepItems_seen hcap hm] at h
        simp only [List.mem_singleton, Prod.mk.injEq] at h
        simp only [List.length_cons]
        omega
      · by_cases hsv : i = 0 ∧ ¬ o.saveOk = true
        · obtain ⟨rfl, hsv⟩ := hsv
          rw [stepItems_savefail hcap hm hsv] at h
          cases h
        · have hok : i = 0 → o.saveOk = true := by
            intro h0
            by_cases hs : o.saveOk = true
            · exact hs
            · exact absurd ⟨h0, hs⟩ hsv
          rw [stepItems_step hcap hm hok] at h
          obtain ⟨oc0, hocs, -, -, -⟩ := itemWork_spec o x i n
          simp only [hocs, List.cons_append, List.nil_append, List.mem_cons,
            List.mem_append, Prod.mk.injEq] at h
          simp only [List.length_cons]
          rcases h with ⟨rfl, -⟩ | h
          · omega
          · have := ih (i + 1) _ _ j oc h
            omega

theorem stepItems_head_outcome (o : Oracle) (cp : GoStr) (x : Item) (xs : List Item)
    (i n : Nat) (fs : Option LastPost) (hcap : ¬ MaxArticlesToSend ≤ n) (hi : 1 ≤ i) :
    ∃ oc, (i, oc) ∈ (stepItems o cp (x :: xs) i n fs).outcomes := by
  have hi0 : ¬ i = 0 := by omega
  by_cases hm : fingerprint x.link = cp
  · rw [stepItems_seen hcap hm]
    exact ⟨.alreadySeen, by simp⟩
  · rw [stepItems_step hcap hm (fun h => absurd h hi0)]
    obtain ⟨oc0, hocs, -, -, -⟩ := itemWork_spec o x i n
    exact ⟨oc0, by simp [hocs]⟩

theorem stepItems_fail_next (o : Oracle) (cp : GoStr) :
    ∀ (items : List Item) (i n : Nat) (fs : Option LastPost) (j : Nat) (oc : Outcome),
      (j, oc) ∈ (stepItems o cp items i n fs).outcomes → oc.isPerItemFailure = true →
        (stepItems o cp items i n fs).err = none ∧
        (j + 1 < i + items.length →
          ∃ oc2, (j + 1, oc2) ∈ (stepItems o cp items i n fs).outcomes) := by
  intro items
  induction items with
  | nil => intro i n fs j oc h _; cases h
  | cons x xs ih =>
    intro i n fs j oc h hfail
    by_cases hcap : MaxArticlesToSend ≤ n
    · rw [stepItems_cap hcap] at h; cases h
    · by_cases hm : fingerprint x.link = cp
      · rw [stepItems_seen hcap hm] at h
        simp only [List.mem_singleton, Prod.mk.injEq] at h
        rw [h.2] at hfail
        cases hfail
      · by_cases hsv : i = 0 ∧ ¬ o.saveOk = true
        · obtain ⟨rfl, hsv⟩ := hsv
          rw [stepItems_savefail hcap hm hsv] at h
          cases h
        · have hok : i = 0 → o.saveOk = true := by
            intro h0
            by_cases hs : o.saveOk = true
            · exact hs
            · exact absurd ⟨h0, hs⟩ hsv
          obtain ⟨oc0, hocs, -, hcnt, -⟩ := itemWork_spec o x i n
          rw [stepItems_step hcap hm hok] at h ⊢
          simp only [hocs, List.cons_append, List.nil_append, List.mem_cons,
            List.mem_append, Prod.mk.injEq] at h
          refine ⟨stepItems_err_pos o cp xs (i + 1) _ _ (by omega), ?_⟩
          rcases h with ⟨rfl, rfl⟩ | h
          · -- the failing outcome is the head item, now at index j
            intro hlt
            simp only [List.length_cons] at hlt
            have hde : ¬ oc = Outcome.delivered := by
              intro hde
              rw [hde] at hfail
              cases hfail
            have hcnt' : (itemWork o x j n).count = n := by rw [hcnt, if_neg hde]
            rcases xs with _ | ⟨y, ys⟩
            · simp only [List.length_nil] at hlt
              omega
            · obtain ⟨oc2, hmem⟩ := stepItems_head_outcome o cp y ys (j + 1)
                (itemWork o x j n).count
                (if j = 0 then some (saveLastPost x.link) else fs)
                (by rw [hcnt']; exact hcap) (by omega)
              exact ⟨oc2, List.mem_append_right _ hmem⟩
          · -- the failing outcome lies in the tail
            intro hlt
            obtain ⟨-, hnext⟩ := ih (i + 1) _ _ j oc h hfail
            obtain ⟨oc2, hmem⟩ := hnext (by simp only [List.length_cons] at hlt; omega)
            exact ⟨oc2, List.mem_append_right _ hmem⟩

theorem stepItems_work_lt (o : Oracle) (cp : GoStr) (k : Nat) :
    ∀ (items : List Item) (i n : Nat) (fs : Option LastPost), i ≤ k →
      (∀ (j : Nat) (itm : Item), items[j]? = some itm → i + j < k → fingerprint itm.link ≠ cp) →
      (∀ itm : Item, items[k - i]? = some itm → fingerprint itm.link = cp) →
      ∀ e ∈ (stepItems o cp items i n fs).events, e.isWork = true → e.idx < k := by
  intro items
  induction items with
  | nil => intro i n fs _ _ _ e he _; cases he
  | cons x xs ih =>
    intro i n fs hik hne hmatch e he hw
    by_cases hcap : MaxArticlesToSend ≤ n
    · rw [stepItems_cap hcap] at he; cases he
    · by_cases hieq : i = k
      · have hm : fingerprint x.link = cp := by
          apply hmatch x
          subst hieq
          simp
        rw [stepItems_seen hcap hm] at he
        simp only [List.mem_singleton] at he
        subst he
        cases hw
      · have hik' : i < k := by omega
        have hm : fingerprint x.link ≠ cp := hne 0 x (by simp) (by omega)
        by_cases hsv : i = 0 ∧ ¬ o.saveOk = true
        · obtain ⟨rfl, hsv⟩ := hsv
          rw [stepItems_savefail hcap hm hsv] at he
          simp only [List.mem_cons, List.not_mem_nil, or_false] at he
          rcases he with rfl | rfl
          · cases hw
          · cases hw
        · have hok : i = 0 → o.saveOk = true := by
            intro h0
            by_cases hs : o.saveOk = true
            · exact hs
            · exact absurd ⟨h0, hs⟩ hsv
          rw [stepItems_step hcap hm hok] at he
          simp only [List.mem_append] at he
          rcases he with he | he | he
          · by_cases hi0 : i = 0
            · rw [if_pos hi0] at he
              simp only [List.mem_cons, List.not_mem_nil, or_false] at he
              rcases he with rfl | rfl
              · cases hw
              · cases hw
            · rw [if_neg hi0] at he
              simp only [List.mem_cons, List.not_mem_nil, or_false] at he
              subst he
              cases hw
          · have := ((itemWork_spec o x i n).choose_spec.2.2.2 e he).2.2
            omega
          · refine ih (i + 1) _ _ (by omega) ?_ ?_ e he hw
            · intro j itm hj hlt
              exact hne (j + 1) itm (by simpa using hj) (by omega)
            · intro itm hj
              apply hmatch itm
              have hk : k - i = (k - (i + 1)) + 1 := by omega
              rw [hk]
              simpa using hj

theorem stepItems_no_seen (o : Oracle) :
    ∀ (items : List Item) (i n : Nat) (fs : Option LastPost) (j : Nat) (oc : Outcome),
      (j, oc) ∈ (stepItems o ([] : GoStr) items i n fs).outcomes → oc ≠ .alreadySeen := by
  intro items
  induction items with
  | nil => intro i n fs j oc h; cases h
  | cons x xs ih =>
    intro i n fs j oc h
    by_cases hcap : MaxArticlesToSend ≤ n
    · rw [stepItems_cap hcap] at h; cases h
    · have hm : fingerprint x.link ≠ ([] : GoStr) := fingerprint_ne_nil x.link
      by_cases hsv : i = 0 ∧ ¬ o.saveOk = true
      · obtain ⟨rfl, hsv⟩ := hsv
        rw [stepItems_savefail hcap hm hsv] at h
        cases h
      · have hok : i = 0 → o.saveOk = true := by
          intro h0
          by_cases hs : o.saveOk = true
          · exact hs
          · exact absurd ⟨h0, hs⟩ hsv
        rw [stepItems_step hcap hm hok] at h
        obtain ⟨oc0, hocs, hnseen, -, -⟩ := itemWork_spec o x i n
        simp only [hocs, List.cons_append, List.nil_append, List.mem_cons,
          List.mem_append, Prod.mk.injEq] at h
        rcases h with ⟨-, rfl⟩ | h
        · exact hnseen
        · exact ih (i + 1) _ _ j oc h

theorem processNewArticles_hash (feed : List Item) (fs : Option LastPost) (o : Oracle)
    (itm0 : Item) (rest : List Item) (hfeed : feed = itm0 :: rest)
    (herr : (processNewArticles feed fs o).err = none) :
    (readLastPost (processNewArticles feed fs o).fsAfter).hash = fingerprint itm0.link := by
  subst hfeed
  unfold processNewArticles at herr ⊢
  rw [if_neg (by simp)] at herr ⊢
  have hcap : ¬ MaxArticlesToSend ≤ 0 := by decide
  by_cases hm : fingerprint itm0.link = (readLastPost fs).hash
  · rw [stepItems_seen hcap hm]
    exact hm.symm
  · by_cases hsv : o.saveOk = true
    · rw [stepItems_step hcap hm (fun _ => hsv)]
      have h2 := stepItems_fs_pos o (readLastPost fs).hash rest (0 + 1)
        (itemWork o itm0 0 0).count
        (if (0 : Nat) = 0 then some (saveLastPost itm0.link) else fs) (by omega)
      show (readLastPost (stepItems o (readLastPost fs).hash rest (0 + 1)
        (itemWork o itm0 0 0).count
        (if (0 : Nat) = 0 then some (saveLastPost itm0.link) else fs)).fsAfter).hash =
        fingerprint itm0.link
      rw [h2]
      simp [readLastPost, saveLastPost]
    · rw [stepItems_savefail hcap hm hsv] at herr
      simp at herr

theorem sentenceEndIdx_replicate_dot (n : Nat) :
    sentenceEndIdx (List.replicate n 'a' ++ ['.']) = some (n + 1) := by
  induction n with
  | zero => rfl
  | succ k ih =>
    rw [List.replicate_succ, List.cons_append]
    simp [sentenceEndIdx, isSentenceTerm, ih]

theorem sentenceMatchesAux_nil (fuel : Nat) : sentenceMatchesAux fuel [] = [] := by
  cases fuel <;> rfl

theorem sentenceMatchesAux_succ (fuel : Nat) (c : Char) (rest : GoStr) :
    sentenceMatchesAux (fuel + 1) (c :: rest) =
      (match sentenceEndIdx (c :: rest) with
       | none => []
       | some k => (c :: rest).take k :: sentenceMatchesAux fuel ((c :: rest).drop k)) := rfl

theorem sentenceMatches_single (n : Nat) :
    sentenceMatches (List.replicate n 'a' ++ ['.']) = [List.replicate n 'a' ++ ['.']] := by
  have hlen : (List.replicate n 'a' ++ ['.'] : GoStr).length = n + 1 := by
    simp
  obtain ⟨c, rest, hcons⟩ :
      ∃ c rest, List.replicate n 'a' ++ ['.'] = c :: rest := by
    cases n with
    | zero => exact ⟨'.', [], rfl⟩
    | succ k =>
      exact ⟨'a', List.replicate k 'a' ++ ['.'], by rw [List.replicate_succ, List.cons_append]⟩
  unfold sentenceMatches
  rw [hlen, hcons, sentenceMatchesAux_succ, ← hcons, sentenceEndIdx_replicate_dot n]
  have htake : (List.replicate n 'a' ++ ['.']).take (n + 1) = List.replicate n 'a' ++ ['.'] :=
    List.take_of_length_le (by rw [hlen])
  have hdrop : (List.replicate n 'a' ++ ['.']).drop (n + 1) = [] :=
    List.drop_eq_nil_of_le (by rw [hlen])
  show List.take (n + 1) (List.replicate n 'a' ++ ['.']) ::
    sentenceMatchesAux n (List.drop (n + 1) (List.replicate n 'a' ++ ['.'])) =
    [List.replicate n 'a' ++ ['.']]
  rw [htake, hdrop, sentenceMatchesAux_nil]

theorem trimSpace_replicate_dot (n : Nat) :
    trimSpace (List.replicate n 'a' ++ ['.']) = List.replicate n 'a' ++ ['.'] := by
  unfold trimSpace
  have h1 : (List.replicate n 'a' ++ ['.']).dropWhile goIsSpace =
      List.replicate n 'a' ++ ['.'] := by
    cases n with
    | zero => rfl
    | succ k =>
      rw [List.replicate_succ, List.cons_append, List.dropWhile_cons]
      simp [goIsSpace, reIsSpace]
  have h2 : (List.replicate n 'a' ++ ['.']).reverse =
      '.' :: (List.replicate n 'a').reverse := by
    rw [List.reverse_append]
    rfl
  rw [h1, h2, List.dropWhile_cons]
  simp [goIsSpace, reIsSpace]

/-! ## Claims -/

/-- Claim C1: if one run of `processNewArticles` completes successfully on a
non-empty feed (so the checkpoint then stores the fingerprint of the feed's
first item), a second run on the same unchanged feed delivers zero items: the
hash comparison at index 0 matches the stored checkpoint fingerprint, the
loop breaks immediately, and no per-item work or delivery happens. -/
theorem claim1_rerun_idempotent (feed : List Item) (fs : Option LastPost) (o1 o2 : Oracle)
    (itm0 : Item) (rest : List Item) (hfeed : feed = itm0 :: rest)
    (h1 : (processNewArticles feed fs o1).err = none) :
    processNewArticles feed (processNewArticles feed fs o1).fsAfter o2 =
      ⟨(processNewArticles feed fs o1).fsAfter, [(0, Outcome.alreadySeen)],
        [Ev.checked 0], 0, none⟩ := by
  have hh := processNewArticles_hash feed fs o1 itm0 rest hfeed h1
  generalize hgen : (processNewArticles feed fs o1).fsAfter = fs1 at hh ⊢
  subst hfeed
  unfold processNewArticles
  rw [if_neg (by simp)]
  exact stepItems_seen (by decide) hh.symm

/-- Claim C1 witness: a concrete one-item feed, first run from a missing
checkpoint file; the second run stops at index 0 with nothing delivered. -/
theorem claim1_rerun_idempotent_witness :
    (processNewArticles [⟨"t".data, "https://example.com/a".data, "d".data, "p".data⟩]
        none ⟨fun _ _ => none, fun _ _ => false, true⟩).err = none ∧
    processNewArticles [⟨"t".data, "https://example.com/a".data, "d".data, "p".data⟩]
        (processNewArticles [⟨"t".data, "https://example.com/a".data, "d".data, "p".data⟩]
          none ⟨fun _ _ => none, fun _ _ => false, true⟩).fsAfter
        ⟨fun _ _ => none, fun _ _ => false, true⟩ =
      ⟨(processNewArticles [⟨"t".data, "https://example.com/a".data, "d".data, "p".data⟩]
          none ⟨fun _ _ => none, fun _ _ => false, true⟩).fsAfter,
        [(0, Outcome.alreadySeen)], [Ev.checked 0], 0, none⟩ :=
  ⟨by decide,
    claim1_rerun_idempotent _ none ⟨fun _ _ => none, fun _ _ => false, true⟩
      ⟨fun _ _ => none, fun _ _ => false, true⟩ _ [] rfl (by decide)⟩

/-- Claim C2 counterexample: at this concrete url, the write trace of
`saveLastPost` contains no rename at all — it is a single direct `WriteFile`
at the checkpoint path — so the claimed write-to-temporary-then-rename
discipline does not hold. -/
theorem claim2_atomic_save_counterexample :
    ¬ writesViaTempRename (saveLastPostOps "https://example.com/a".data) := by
  rintro ⟨i, j, tmp, data, hij, hi, hj, hne⟩
  have hnone : (saveLastPostOps "https://example.com/a".data)[j]? = none := by
    apply List.getElem?_eq_none
    show (1 : Nat) ≤ j
    omega
  rw [hnone] at hj
  cases hj

/-- Claim C2 amended: `saveLastPost` serializes the checkpoint record and
writes it with a single direct `os.WriteFile` at the final checkpoint path;
no temporary file and no rename are involved, so the write is not performed
via the claimed temporary-location-then-rename discipline (and an interrupted
write can leave a partial file at the checkpoint path). -/
theorem claim2_atomic_save_amended (url : GoStr) :
    saveLastPostOps url =
      [FSOp.writeFile lastPostFile (marshalLastPost (saveLastPost url))] ∧
    ¬ writesViaTempRename (saveLastPostOps url) := by
  refine ⟨rfl, ?_⟩
  rintro ⟨i, j, tmp, data, hij, hi, hj, hne⟩
  have hnone : (saveLastPostOps url)[j]? = none := by
    apply List.getElem?_eq_none
    show (1 : Nat) ≤ j
    omega
  rw [hnone] at hj
  cases hj

/-- Claim C3: whenever the item at feed index 0 is judged new (its fingerprint
differs from the stored checkpoint hash), the run's event trace starts with
the hash comparison followed immediately by the checkpoint write — strictly
before any link validation, normalization, translation or delivery event —
and no checkpoint write ever occurs later (in particular none for any index
above 0). -/
theorem claim3_advance_before_confirm (feed : List Item) (fs : Option LastPost) (o : Oracle)
    (itm0 : Item) (h0 : feed.head? = some itm0)
    (hnew : fingerprint itm0.link ≠ (readLastPost fs).hash) :
    ∃ rest, (processNewArticles feed fs o).events =
      Ev.checked 0 :: Ev.save 0 itm0.link :: rest ∧ ∀ e ∈ rest, e.isSave = false := by
  rcases feed with _ | ⟨x, xs⟩
  · cases h0
  · have hx : x = itm0 := by simpa using h0
    subst hx
    unfold processNewArticles
    rw [if_neg (by simp)]
    have hcap : ¬ MaxArticlesToSend ≤ 0 := by decide
    by_cases hsv : o.saveOk = true
    · rw [stepItems_step hcap hnew (fun _ => hsv)]
      refine ⟨(itemWork o x 0 0).evs ++
        (stepItems o (readLastPost fs).hash xs (0 + 1) (itemWork o x 0 0).count
          (if (0 : Nat) = 0 then some (saveLastPost x.link) else fs)).events, ?_, ?_⟩
      · simp
      · intro e he
        rcases List.mem_append.mp he with he | he
        · exact ((itemWork_spec o _ 0 0).choose_spec.2.2.2 e he).1
        · exact stepItems_no_save_pos o _ _ (0 + 1) _ _ (by omega) e he
    · rw [stepItems_savefail hcap hnew hsv]
      exact ⟨[], rfl, by intro e he; cases he⟩

/-- Claim C3 witness: concrete one-item feed with no checkpoint file; the
trace is the hash check, then the checkpoint write, then save-free events. -/
theorem claim3_advance_before_confirm_witness :
    fingerprint "https://example.com/a".data ≠ (readLastPost none).hash ∧
    ∃ rest, (processNewArticles
        [⟨"t".data, "https://example.com/a".data, "d".data, "p".data⟩] none
        ⟨fun _ _ => none, fun _ _ => false, true⟩).events =
      Ev.checked 0 :: Ev.save 0 "https://example.com/a".data :: rest ∧
      ∀ e ∈ rest, e.isSave = false :=
  ⟨fingerprint_ne_nil _,
    claim3_advance_before_confirm
      [⟨"t".data, "https://example.com/a".data, "d".data, "p".data⟩] none
      ⟨fun _ _ => none, fun _ _ => false, true⟩
      ⟨"t".data, "https://example.com/a".data, "d".data, "p".data⟩ rfl
      (fingerprint_ne_nil _)⟩

/-- Claim C4 counterexample: the first draft's `processNewArticles` on an
empty feed returns success (nil error) with nothing delivered — it does not
report a fatal error. -/
theorem claim4_empty_feed_counterexample :
    processNewArticles [] none ⟨fun _ _ => none, fun _ _ => false, true⟩ =
      ⟨none, [], [], 0, none⟩ := rfl

/-- Claim C4 amended: the second draft's `processNewArticles` reports a fatal
error on a feed with zero items, while the first draft's variant logs a
warning and returns success. -/
theorem claim4_empty_feed_amended (file : Option LastPost) (o : Oracle) :
    (processNewArticlesV2 [] file o).err = some RunErr.emptyFeed ∧
    (processNewArticles [] file o).err = none := by
  constructor <;> rfl

/-- Claim C5 counterexample: the first draft's `translateWithYandex` does not
chunk-round-trip — it truncates its input to the first `MaxSummaryLength`
(1000) bytes plus `"..."` before a single call, so with an identity stub the
result differs from a 1001-byte input. -/
theorem claim5_truncation_counterexample :
    translateWithYandex "k".data "f".data (fun c => some c) (List.replicate 1001 'a') ≠
      some (List.replicate 1001 'a') := by
  intro h
  unfold translateWithYandex at h
  rw [if_neg (by simp)] at h
  have h2 := congrArg List.length (Option.some.inj h)
  unfold limitText at h2
  rw [if_neg (by rw [List.length_replicate]; decide)] at h2
  rw [List.length_append, List.length_take, List.length_replicate] at h2
  have h3 : ("...".data : GoStr).length = 3 := rfl
  rw [h3] at h2
  simp only [MaxSummaryLength] at h2
  omega

/-- Claim C5 amended: the second draft's `translateWithYandex` satisfies the
chunk round-trip: it partitions the whole text into contiguous in-order
chunks of at most `YandexMaxTextSize`, issues one call per chunk in order,
and with an identity stub the joined result is exactly the original text.
The first draft's variant instead truncates to `MaxSummaryLength` bytes plus
an ellipsis before a single call (see the counterexample). -/
theorem claim5_chunk_roundtrip (apiKey folderId text : GoStr)
    (hk : apiKey ≠ []) (hf : folderId ≠ []) :
    (∀ c ∈ chunksOf YandexMaxTextSize text, c.length ≤ YandexMaxTextSize) ∧
    (chunksOf YandexMaxTextSize text).flatten = text ∧
    translateCalls (fun c => some c) (chunksOf YandexMaxTextSize text) =
      some (chunksOf YandexMaxTextSize text) ∧
    translateWithYandexV2 apiKey folderId (fun c => some c) text = some text := by
  have hs : (1 : Nat) ≤ YandexMaxTextSize := by decide
  refine ⟨fun c hc => chunksOf_mem_length hc, chunksOf_flatten hs text,
    translateCalls_id _, ?_⟩
  unfold translateWithYandexV2
  rw [if_neg (fun h => h.elim hk hf), translateCalls_id]
  simp [chunksOf_flatten hs text]

/-- Claim C5 witness: the round-trip at a concrete short text and nonempty
credentials. -/
theorem claim5_chunk_roundtrip_witness :
    ("k".data : GoStr) ≠ [] ∧ ("f".data : GoStr) ≠ [] ∧
    ((∀ c ∈ chunksOf YandexMaxTextSize "ab".data, c.length ≤ YandexMaxTextSize) ∧
      (chunksOf YandexMaxTextSize "ab".data).flatten = "ab".data ∧
      translateCalls (fun c => some c) (chunksOf YandexMaxTextSize "ab".data) =
        some (chunksOf YandexMaxTextSize "ab".data) ∧
      translateWithYandexV2 "k".data "f".data (fun c => some c) "ab".data =
        some "ab".data) :=
  ⟨by decide, by decide,
    claim5_chunk_roundtrip "k".data "f".data "ab".data (by decide) (by decide)⟩

/-- Claim C6: for every message longer than the delivery limit, the first
draft's splitter produces parts of at most `TelegramMaxText - 100` bytes (the
100-byte safety margin below the hard limit), the parts concatenate to
exactly the original message (their lengths sum to the original length), and
`sendToTelegram` delivers exactly those parts in order. -/
theorem claim6_delivery_split (text : GoStr) (_h : TelegramMaxText < text.length) :
    (∀ p ∈ splitMessage text (TelegramMaxText - 100), p.length ≤ TelegramMaxText - 100) ∧
    (splitMessage text (TelegramMaxText - 100)).flatten = text ∧
    ((splitMessage text (TelegramMaxText - 100)).map List.length).sum = text.length ∧
    sendToTelegram (fun _ => true) text = (splitMessage text (TelegramMaxText - 100), none) := by
  have hs : (1 : Nat) ≤ TelegramMaxText - 100 := by decide
  rw [splitMessage_eq_chunksOf text hs]
  refine ⟨fun p hp => chunksOf_mem_length hp, chunksOf_flatten hs text,
    chunksOf_length_sum hs text, ?_⟩
  unfold sendToTelegram
  rw [splitMessage_eq_chunksOf text hs]
  exact sendParts_ok _ 0

/-- Claim C6 witness: a concrete 4097-byte message, above the 4096 limit. -/
theorem claim6_delivery_split_witness :
    TelegramMaxText < (List.replicate 4097 'a').length ∧
    ((∀ p ∈ splitMessage (List.replicate 4097 'a') (TelegramMaxText - 100),
        p.length ≤ TelegramMaxText - 100) ∧
      (splitMessage (List.replicate 4097 'a') (TelegramMaxText - 100)).flatten =
        List.replicate 4097 'a' ∧
      ((splitMessage (List.replicate 4097 'a') (TelegramMaxText - 100)).map
        List.length).sum = (List.replicate 4097 'a').length ∧
      sendToTelegram (fun _ => true) (List.replicate 4097 'a') =
        (splitMessage (List.replicate 4097 'a') (TelegramMaxText - 100), none)) :=
  ⟨by rw [List.length_replicate]; decide,
    claim6_delivery_split _ (by rw [List.length_replicate]; decide)⟩

/-- Claim C7 counterexample: the sentence path of `intelligentSummary` is not
bounded by `MaxSummaryLength` plus a few characters: a single 1500-byte
sentence is returned whole (plus the ellipsis), exceeding the 1000-byte limit
by 503 bytes. -/
theorem claim7_bound_counterexample :
    MaxSummaryLength < (List.replicate 1499 'a' ++ ['.'] : GoStr).length ∧
    MaxSummaryLength + 100 <
      (intelligentSummary (List.replicate 1499 'a' ++ ['.'])).length := by
  have hlen : (List.replicate 1499 'a' ++ ['.'] : GoStr).length = 1500 := by
    simp
  constructor
  · rw [hlen]; decide
  · unfold intelligentSummary
    rw [if_neg (by rw [hlen]; decide)]
    simp only [sentenceMatches_single 1499]
    rw [if_pos (by decide : 0 < ([List.replicate 1499 'a' ++ ['.']] : List GoStr).length)]
    have hmin : min SummarySentences
        ([List.replicate 1499 'a' ++ ['.']] : List GoStr).length = 1 := rfl
    rw [hmin]
    have htake : ([List.replicate 1499 'a' ++ ['.']] : List GoStr).take 1 =
        [List.replicate 1499 'a' ++ ['.']] := rfl
    rw [htake]
    have hjoin : joinSep " ".data [List.replicate 1499 'a' ++ ['.']] =
        List.replicate 1499 'a' ++ ['.'] := rfl
    rw [hjoin, trimSpace_replicate_dot, List.length_append, hlen]
    decide

/-- Claim C7 amended: `intelligentSummary` returns its input unchanged
whenever its length is at most `MaxSummaryLength`; for longer text with at
least one sentence match it returns the first `SummarySentences` sentences
(joined, trimmed) plus the ellipsis marker, with no bound relative to
`MaxSummaryLength`; only when no sentence boundary exists do the
last-space/hard-cut fallbacks apply, and those results never exceed
`MaxSummaryLength` plus the 3-byte ellipsis. -/
theorem claim7_summary_truncation :
    (∀ t : GoStr, t.length ≤ MaxSummaryLength → intelligentSummary t = t) ∧
    (∀ t : GoStr, MaxSummaryLength < t.length → sentenceMatches t ≠ [] →
      intelligentSummary t =
        trimSpace (joinSep " ".data ((sentenceMatches t).take
          (min SummarySentences (sentenceMatches t).length))) ++ goEllipsis) ∧
    (∀ t : GoStr, MaxSummaryLength < t.length → sentenceMatches t = [] →
      (intelligentSummary t).length ≤ MaxSummaryLength + goEllipsis.length) := by
  refine ⟨?_, ?_, ?_⟩
  · intro t ht
    simp [intelligentSummary, ht]
  · intro t ht hms
    rw [intelligentSummary, if_neg (by omega)]
    have hpos : 0 < (sentenceMatches t).length := List.length_pos.mpr hms
    simp [hpos]
  · intro t ht hms
    rw [intelligentSummary, if_neg (by omega)]
    simp only [hms, List.length_nil, lt_irrefl, if_false]
    have hell : goEllipsis.length = 3 := rfl
    rcases hls : lastSpace (t.take MaxSummaryLength) with _ | si
    · simp only [hls]
      rw [List.length_append, List.length_take, hell]
      omega
    · have hsi := lastSpace_lt hls
      rw [List.length_take] at hsi
      simp only [hls]
      by_cases h0 : 0 < si
      · rw [if_pos h0, List.length_append, List.length_take, hell]
        omega
      · rw [if_neg h0, List.length_append, List.length_take, hell]
        omega

/-- Claim C7 witness: the identity branch at a concrete short text. -/
theorem claim7_summary_truncation_witness :
    ("ab".data : GoStr).length ≤ MaxSummaryLength ∧
    intelligentSummary "ab".data = "ab".data :=
  ⟨by decide, claim7_summary_truncation.1 "ab".data (by decide)⟩

/-- Claim C8: if index `k` is the smallest feed index whose link fingerprint
equals the stored checkpoint hash, then every validation, normalization,
translation and delivery event of the run concerns an item at an index
strictly below `k`: item `k` and all later items are never validated,
translated or delivered. -/
theorem claim8_checkpoint_boundary (feed : List Item) (fs : Option LastPost) (o : Oracle)
    (k : Nat) (itmk : Item) (hk : feed[k]? = some itmk)
    (hmatch : fingerprint itmk.link = (readLastPost fs).hash)
    (hmin : ∀ (j : Nat) (itm : Item), feed[j]? = some itm → j < k →
      fingerprint itm.link ≠ (readLastPost fs).hash) :
    ∀ e ∈ (processNewArticles feed fs o).events, e.isWork = true → e.idx < k := by
  have hfeed : feed ≠ [] := by
    intro h
    subst h
    simp at hk
  unfold processNewArticles
  rw [if_neg hfeed]
  refine stepItems_work_lt o _ k feed 0 0 fs (by omega) ?_ ?_
  · intro j itm hj hlt
    exact hmin j itm hj (by omega)
  · intro itm hj
    rw [Nat.sub_zero, hk] at hj
    obtain rfl : itmk = itm := Option.some.inj hj
    exact hmatch

/-- Claim C8 witness: a one-item feed whose only item is exactly the stored
checkpoint (`k = 0`), so no work events occur at all. -/
theorem claim8_checkpoint_boundary_witness :
    ([⟨"t".data, "https://example.com/a".data, "d".data, "p".data⟩] :
        List Item)[0]? = some ⟨"t".data, "https://example.com/a".data, "d".data, "p".data⟩ ∧
    fingerprint "https://example.com/a".data =
      (readLastPost (some ⟨"https://example.com/a".data,
        fingerprint "https://example.com/a".data⟩)).hash ∧
    ∀ e ∈ (processNewArticles
        [⟨"t".data, "https://example.com/a".data, "d".data, "p".data⟩]
        (some ⟨"https://example.com/a".data, fingerprint "https://example.com/a".data⟩)
        ⟨fun _ _ => none, fun _ _ => false, true⟩).events,
      e.isWork = true → e.idx < 0 :=
  ⟨rfl, rfl,
    claim8_checkpoint_boundary _ _ ⟨fun _ _ => none, fun _ _ => false, true⟩ 0 _ rfl rfl
      (fun j _itm _ hlt => absurd hlt (Nat.not_lt_zero j))⟩

/-- Claim C9: every per-item failure (invalid link, empty content after
normalization and title fallback, translation failure, delivery failure)
only skips that item: the run still returns no error, and if a further item
exists the loop goes on to examine it and records an outcome for it. -/
theorem claim9_failure_isolation (feed : List Item) (fs : Option LastPost) (o : Oracle)
    (j : Nat) (oc : Outcome) (hmem : (j, oc) ∈ (processNewArticles feed fs o).outcomes)
    (hfail : oc.isPerItemFailure = true) :
    (processNewArticles feed fs o).err = none ∧
    (j + 1 < feed.length → ∃ oc2, (j + 1, oc2) ∈ (processNewArticles feed fs o).outcomes) := by
  rcases feed with _ | ⟨x, xs⟩
  · simp [processNewArticles] at hmem
  · unfold processNewArticles at hmem ⊢
    rw [if_neg (by simp)] at hmem ⊢
    have h := stepItems_fail_next o _ (x :: xs) 0 0 fs j oc hmem hfail
    simpa using h

/-- Claim C9 witness: item 0 has the link `"not a url"` and is skipped as
invalid; the run succeeds and the following valid item is still examined. -/
theorem claim9_failure_isolation_witness :
    ((0, Outcome.invalidLink) ∈ (processNewArticles
        [⟨"t1".data, "not a url".data, "d1".data, "p1".data⟩,
         ⟨"t2".data, "https://example.com/b".data, "d2".data, "p2".data⟩] none
        ⟨fun _ c => some c, fun _ _ => true, true⟩).outcomes) ∧
    Outcome.invalidLink.isPerItemFailure = true ∧
    ((processNewArticles
        [⟨"t1".data, "not a url".data, "d1".data, "p1".data⟩,
         ⟨"t2".data, "https://example.com/b".data, "d2".data, "p2".data⟩] none
        ⟨fun _ c => some c, fun _ _ => true, true⟩).err = none ∧
      (0 + 1 < ([⟨"t1".data, "not a url".data, "d1".data, "p1".data⟩,
         ⟨"t2".data, "https://example.com/b".data, "d2".data, "p2".data⟩] :
           List Item).length →
        ∃ oc2, (0 + 1, oc2) ∈ (processNewArticles
          [⟨"t1".data, "not a url".data, "d1".data, "p1".data⟩,
           ⟨"t2".data, "https://example.com/b".data, "d2".data, "p2".data⟩] none
          ⟨fun _ c => some c, fun _ _ => true, true⟩).outcomes)) :=
  ⟨by decide, rfl,
    claim9_failure_isolation _ none ⟨fun _ c => some c, fun _ _ => true, true⟩ 0
      Outcome.invalidLink (by decide) rfl⟩

/-- Claim C10: `readLastPost` on a missing checkpoint file yields the record
with empty url and hash; every fingerprint is a 32-character string of
lowercase hex digits, hence never empty and never equal to the missing-file
hash; consequently on a first run (no checkpoint file) no examined item is
ever classified as already seen — every one is classified as new. -/
theorem claim10_first_run_all_new :
    readLastPost none = ⟨[], []⟩ ∧
    (∀ s : GoStr, (fingerprint s).length = 32 ∧
      ∀ c ∈ fingerprint s, c ∈ "0123456789abcdef".data) ∧
    (∀ s : GoStr, fingerprint s ≠ (readLastPost none).hash) ∧
    (∀ (feed : List Item) (o : Oracle) (j : Nat) (oc : Outcome),
      (j, oc) ∈ (processNewArticles feed none o).outcomes → oc ≠ Outcome.alreadySeen) := by
  refine ⟨rfl, fun s => ⟨fingerprint_length s, fun c hc => fingerprint_hex hc⟩,
    fun s => fingerprint_ne_nil s, ?_⟩
  intro feed o j oc hmem
  rcases feed with _ | ⟨x, xs⟩
  · simp [processNewArticles] at hmem
  · unfold processNewArticles at hmem
    rw [if_neg (by simp)] at hmem
    exact stepItems_no_seen o (x :: xs) 0 0 none j oc hmem

/-- Claim C10 witness: on a first run over a concrete one-item feed the
recorded outcome is a fresh-item outcome, not `alreadySeen`. -/
theorem claim10_first_run_all_new_witness :
    ((0, Outcome.translationFailed) ∈ (processNewArticles
        [⟨"t".data, "https://example.com/a".data, "d".data, "p".data⟩] none
        ⟨fun _ _ => none, fun _ _ => false, true⟩).outcomes) ∧
    Outcome.translationFailed ≠ Outcome.alreadySeen :=
  ⟨by decide,
    claim10_first_run_all_new.2.2.2
      [⟨"t".data, "https://example.com/a".data, "d".data, "p".data⟩]
      ⟨fun _ _ => none, fun _ _ => false, true⟩ 0
      Outcome.translationFailed (by decide)⟩

end ZH
